import Mathlib

/-!
Verification of the appletree directory-tree viewer (main.cpp).

The development shallowly embeds the traversal-and-filter engine of the
program: the global configuration built by `parseArgs`, the pure filter
decisions of `printTree` (hidden-file rule, exclude patterns, include
patterns), the depth ceiling, sibling sorting, the recursive size
aggregation `dirSizeRecursive`, the human-readable `formatSize`, and the
exit-code behaviour of `main`.  Filesystem trees are modelled by the
inductive type `FSTree`; every string operation of the C++ code
(`std::string` comparison, prefix test, character search) is modelled by
a computable function on the string's character list.
-/

/-- Theme enum of the program (`enum class Theme {classic, round}`). -/
inductive Theme where
  | classic
  | round
deriving DecidableEq

/-- The process-wide configuration built from the command line: the
`excludeList` and `onlyList` global sets, the optional depth limit, the
size toggle and the drawing theme. -/
structure Config where
  excludeList : List String
  onlyList : List String
  maxDepth : Option Nat
  showSizes : Bool
  theme : Theme
deriving DecidableEq

/-- Default-initialised globals of the program. -/
def initConfig : Config :=
  { excludeList := [], onlyList := [], maxDepth := none,
    showSizes := false, theme := Theme.classic }

/-- A filesystem rooted at an entry: a regular file with a byte size, or
a directory with a list of children. -/
inductive FSTree where
  | file : String → Nat → FSTree
  | dir : String → List FSTree → FSTree

/-- Basename of an entry (`entry.path().filename().string()`). -/
def FSTree.name : FSTree → String
  | .file n _ => n
  | .dir n _ => n

/-- Directory test (`fs::is_directory`). -/
def FSTree.isDir : FSTree → Bool
  | .file _ _ => false
  | .dir _ _ => true

mutual

/-- Height of a tree, used as recursion fuel for the traversal. -/
def FSTree.height : FSTree → Nat
  | .file _ _ => 0
  | .dir _ cs => heightList cs + 1

/-- Height of a list of trees. -/
def heightList : List FSTree → Nat
  | [] => 0
  | c :: cs => max (FSTree.height c) (heightList cs)

end

/-- Branch glyph in front of an entry (`branch(bool isLast)`). -/
def branch (t : Theme) (isLast : Bool) : String :=
  match t with
  | .round => if isLast then "╰── " else "├── "
  | .classic => if isLast then "└── " else "├── "

/-- Continuation glyph appended to the prefix (`vertical(bool isLast)`). -/
def vertical (t : Theme) (isLast : Bool) : String :=
  match t with
  | .round => if isLast then "    " else "│   "
  | .classic => if isLast then "    " else "│   "

/-- Size of a regular file (`fileSizeSafe`): `none` when the entry is not
a regular file. -/
def fileSizeSafe : FSTree → Option Nat
  | .file _ s => some s
  | .dir _ _ => none

mutual

/-- All entries yielded by `fs::recursive_directory_iterator` on a tree:
every entry strictly below it, in depth-first order.  Iterating a
non-directory fails with an error code and yields nothing. -/
def riEntries : FSTree → List FSTree
  | .file _ _ => []
  | .dir _ cs => riEntriesList cs

/-- Recursive-iterator entries contributed by a child list. -/
def riEntriesList : List FSTree → List FSTree
  | [] => []
  | c :: cs => (c :: riEntries c) ++ riEntriesList cs

end

/-- Contribution of one visited entry to the directory total: regular
files contribute their size, directories contribute nothing. -/
def entrySizeContrib : FSTree → Nat
  | .file _ s => s
  | .dir _ _ => 0

/-- `dirSizeRecursive`: walk the whole subtree with the recursive
iterator and add up the sizes of the regular files found. -/
def dirSizeRecursive (t : FSTree) : Nat :=
  ((riEntries t).map entrySizeContrib).sum

/-- The unit table of `formatSize`. -/
def units : List String := ["B", "KiB", "MiB", "GiB", "TiB", "PiB", "EiB"]

/-- The division loop of `formatSize`: starting from `idx`, divide by
1024 while the scaled value is still at least 1024 and fuel remains.
After `idx` divisions the scaled value is `bytes / 1024 ^ idx`, so the
loop guard `value >= 1024.0` is `1024 ^ (idx + 1) ≤ bytes`. -/
def sizeIdxGo (bytes : Nat) : Nat → Nat → Nat
  | idx, 0 => idx
  | idx, fuel + 1 => if 1024 ^ (idx + 1) ≤ bytes then sizeIdxGo bytes (idx + 1) fuel else idx

/-- Number of divisions performed by `formatSize` (the loop runs while
`value >= 1024.0 && idx < 6`). -/
def sizeIdx (bytes : Nat) : Nat := sizeIdxGo bytes 0 6

/-- Round `num / den` to the nearest integer, ties to even: the rounding
`snprintf` applies when printing a binary floating-point value with
`%.0f` (and, on tenths, with `%.1f`). -/
def roundHalfEven (num den : Nat) : Nat :=
  let q := num / den
  let r := num % den
  if 2 * r < den then q
  else if den < 2 * r then q + 1
  else if q % 2 = 0 then q else q + 1

/-- `formatSize`: scale by 1024 at most six times, then print with one
decimal place when the scaled value is below 10 and at least one
division happened, and as a rounded integer otherwise. -/
def formatSize (bytes : Nat) : String :=
  let idx := sizeIdx bytes
  let den := 1024 ^ idx
  let unit := units.getD idx "B"
  if bytes < 10 * den ∧ 0 < idx then
    let t := roundHalfEven (10 * bytes) den
    toString (t / 10) ++ "." ++ toString (t % 10) ++ " " ++ unit
  else
    toString (roundHalfEven bytes den) ++ " " ++ unit

/-- The size annotation appended to a printed entry when `-s` is active
(lines 252-264 of the source, also lines 401-413 for the root): a
directory shows its recursive total, a regular file its own size, and an
entry whose size cannot be determined shows nothing. -/
def sizeSuffix (cfg : Config) (t : FSTree) : String :=
  if cfg.showSizes then
    if t.isDir then " (" ++ formatSize (dirSizeRecursive t) ++ ")"
    else
      match fileSizeSafe t with
      | some b => " (" ++ formatSize b ++ ")"
      | none => ""
  else ""

/-- Root-relative path of a child (`weakly_canonical(entry).lexically_relative(root)`
rendered with forward slashes): the parent's relative path joined with
the basename. -/
def childRel (parentRel name : String) : String :=
  if parentRel = "" then name else parentRel ++ "/" ++ name

/-- Computable prefix test on strings, the model of
`s.rfind(pat, 0) == 0` (and of `argv[i][0] == '-'`). -/
def strStartsWith (s pat : String) : Bool :=
  pat.data.isPrefixOf s.data

/-- Computable character search, the model of
`s.find(c) != std::string::npos`. -/
def strContainsChar (s : String) (c : Char) : Bool :=
  s.data.contains c

/-- Hidden-file rule (line 199): with `-e .` active, an entry whose
basename starts with `.` is skipped. -/
def hiddenSkip (cfg : Config) (base : String) : Bool :=
  !base.data.isEmpty && (cfg.excludeList.any fun s => decide (s = "."))
    && strStartsWith base "."

/-- One exclude pattern applied to one entry (lines 213-220): the `.`
pattern is skipped; a pattern containing `/` rejects the exact relative
path and its subtree; a bare pattern rejects by basename. -/
def matchesExclude (ex rel base : String) : Bool :=
  if ex = "." then false
  else if strContainsChar ex '/' then
    decide (rel = ex) || strStartsWith rel (ex ++ "/")
  else decide (base = ex)

/-- Exclude decision (lines 211-222). -/
def isExcluded (cfg : Config) (rel base : String) : Bool :=
  cfg.excludeList.any fun ex => matchesExclude ex rel base

/-- One include pattern applied to one entry (lines 227-234): target,
inside the target, or ancestor of the target. -/
def includeMatch (p rel : String) : Bool :=
  decide (rel = p) || strStartsWith rel (p ++ "/") || strStartsWith p (rel ++ "/")

/-- Include decision (lines 225-236): everything is allowed when the
only-list is empty. -/
def isAllowed (cfg : Config) (rel : String) : Bool :=
  cfg.onlyList.isEmpty || cfg.onlyList.any fun p => includeMatch p rel

/-- The whole filter applied to a candidate entry of one directory
level: survives the hidden-file rule, the exclude patterns and the
include patterns. -/
def passesFilter (cfg : Config) (rel base : String) : Bool :=
  !hiddenSkip cfg base && !isExcluded cfg rel base && isAllowed cfg rel

/-- Computable lexicographic comparison of character lists, the model of
the `<` comparison `std::sort` applies to the collected paths (the
entries of one level share their parent, so the comparison is decided by
the basenames). -/
def charListLt : List Char → List Char → Bool
  | [], [] => false
  | [], _ :: _ => true
  | _ :: _, [] => false
  | a :: as, b :: bs =>
    if a < b then true
    else if b < a then false
    else charListLt as bs

/-- Name comparison between two entries. -/
def nameLt (x y : FSTree) : Bool :=
  charListLt x.name.data y.name.data

/-- Insert an entry into a name-sorted list. -/
def insertByName (x : FSTree) : List FSTree → List FSTree
  | [] => [x]
  | y :: ys => if nameLt y x then y :: insertByName x ys else x :: y :: ys

/-- Insertion sort by name (`std::sort(entries.begin(), entries.end())`). -/
def sortByName : List FSTree → List FSTree
  | [] => []
  | x :: xs => insertByName x (sortByName xs)

/-- The surviving entries of one directory level, sorted (lines 188-242):
collect the children passing the filter, then sort them. -/
def levelEntries (cfg : Config) (parentRel : String) (cs : List FSTree) : List FSTree :=
  sortByName (cs.filter fun c => passesFilter cfg (childRel parentRel c.name) c.name)

/-- One printed line of the tree, with the data the program computed for
it: basename, root-relative path, the `depth` parameter of the
`printTree` call that printed it, directory flag, last-sibling flag,
branch glyph, size annotation and accumulated prefix. -/
structure Rendered where
  name : String
  rel : String
  depth : Nat
  isDir : Bool
  isLast : Bool
  glyph : String
  suffix : String
  pre : String
deriving DecidableEq

/-- Depth-ceiling test at the top of `printTree` (lines 184-186):
`maxDepth.has_value() && depth >= maxDepth.value()`. -/
def stopAtDepth (cfg : Config) (depth : Nat) : Bool :=
  match cfg.maxDepth with
  | some m => decide (m ≤ depth)
  | none => false

/-- The line printed for one surviving entry (lines 245-271), recording
the values the program computed for it. -/
def mkLine (cfg : Config) (parentRel pre : String) (depth : Nat) (isLast : Bool)
    (c : FSTree) : Rendered :=
  { name := c.name, rel := childRel parentRel c.name, depth := depth, isDir := c.isDir,
    isLast := isLast, glyph := branch cfg.theme isLast,
    suffix := sizeSuffix cfg c, pre := pre }

/-- Fuel-indexed body of `printTree root current prefix depth`.  The fuel
only bounds the recursion (any fuel at least the height of the tree gives
the same result); each step is the body of the C++ function: stop at the
depth ceiling, list the children (listing a non-directory fails and
yields nothing), filter and sort them, then print each surviving entry
and recurse into directories with an extended prefix and `depth + 1`. -/
def printTreeGo (cfg : Config) : Nat → String → String → Nat → FSTree → List Rendered
  | 0, _, _, _, _ => []
  | _ + 1, _, _, _, .file _ _ => []
  | fuel + 1, parentRel, pre, depth, .dir _ cs =>
    if stopAtDepth cfg depth then []
    else
      let entries := levelEntries cfg parentRel cs
      entries.enum.flatMap fun ic =>
        let isLast : Bool := decide (ic.1 = entries.length - 1)
        let c := ic.2
        mkLine cfg parentRel pre depth isLast c ::
        (if c.isDir then
          printTreeGo cfg fuel (childRel parentRel c.name)
            (pre ++ vertical cfg.theme isLast) (depth + 1) c
         else [])

/-- `printTree`: run the traversal with enough fuel for the whole tree. -/
def printTree (cfg : Config) (parentRel pre : String) (depth : Nat) (t : FSTree) : List Rendered :=
  printTreeGo cfg t.height parentRel pre depth t

/-- Split off the leading non-flag tokens: the inner
`while (++i < argc && argv[i][0] != '-')` collection loop of `-e`/`-o`. -/
def takePatterns : List String → List String × List String
  | [] => ([], [])
  | a :: rest =>
    if strStartsWith a "-" then ([], a :: rest)
    else
      let pr := takePatterns rest
      (a :: pr.1, pr.2)

/-- Value of a digit string, the model of `std::stoul` on a string the
program has already checked to be all digits. -/
def digitsToNat (l : List Char) : Nat :=
  l.foldl (fun acc c => acc * 10 + (c.toNat - 48)) 0

/-- State threaded through `parseArgs`: the configuration globals plus
the positional root path. -/
structure ParseState where
  cfg : Config
  root : Option String
deriving DecidableEq

/-- Initial parser state. -/
def initState : ParseState := { cfg := initConfig, root := none }

/-- Fuel-indexed argument loop of `parseArgs` (lines 283-363).  `none`
models `return false` (help or an argument error); each step consumes at
least one token, so fuel equal to the argument count suffices. -/
def parseLoopGo : Nat → List String → ParseState → Option ParseState
  | _, [], st => some st
  | 0, _ :: _, _ => none
  | fuel + 1, arg :: rest, st =>
    if arg = "help" then none
    else if arg = "-e" then
      match rest with
      | [] => none
      | next :: _ =>
        if strStartsWith next "-" then none
        else
          let pr := takePatterns rest
          parseLoopGo fuel pr.2
            { st with cfg := { st.cfg with excludeList := st.cfg.excludeList ++ pr.1 } }
    else if arg = "-o" then
      match rest with
      | [] => none
      | next :: _ =>
        if strStartsWith next "-" then none
        else
          let pr := takePatterns rest
          parseLoopGo fuel pr.2
            { st with cfg := { st.cfg with onlyList := st.cfg.onlyList ++ pr.1 } }
    else if arg = "-d" then
      match rest with
      | [] => none
      | next :: rest2 =>
        if strStartsWith next "-" then none
        else if next.data.isEmpty || !(next.data.all Char.isDigit) then none
        else
          let dv := digitsToNat next.data
          if dv < 2 ^ 64 then
            parseLoopGo fuel rest2 { st with cfg := { st.cfg with maxDepth := some dv } }
          else none
    else if arg = "-t" then
      match rest with
      | [] => none
      | next :: rest2 =>
        if strStartsWith next "-" then none
        else if next = "classic" then
          parseLoopGo fuel rest2 { st with cfg := { st.cfg with theme := Theme.classic } }
        else if next = "round" then
          parseLoopGo fuel rest2 { st with cfg := { st.cfg with theme := Theme.round } }
        else none
    else if arg = "-s" then
      parseLoopGo fuel rest { st with cfg := { st.cfg with showSizes := true } }
    else
      match st.root with
      | none => parseLoopGo fuel rest { st with root := some arg }
      | some _ => parseLoopGo fuel rest st

/-- `parseArgs` on the argument list `argv[1:]`: the main loop followed
by the final `-e`/`-o` re-check of lines 366-374. -/
def parseArgs (args : List String) : Option ParseState :=
  match parseLoopGo args.length args initState with
  | none => none
  | some st =>
    if st.cfg.excludeList.isEmpty && st.cfg.onlyList.isEmpty && !args.isEmpty
        && ((args.any fun a => decide (a = "-e")) || (args.any fun a => decide (a = "-o")))
    then none
    else some st

/-- The root line printed by `main` (lines 401-416): the root's basename
with the same size-annotation rule as the children, never filtered. -/
def rootLine (cfg : Config) (t : FSTree) : Rendered :=
  { name := t.name, rel := "", depth := 0, isDir := t.isDir, isLast := true,
    glyph := "", suffix := sizeSuffix cfg t, pre := "" }

/-- The `main` function of the program: parse the arguments (exit 1 when
parsing returns false, which covers both `help` and argument errors),
exit 1 when the resolved root does not exist (`rootFs = none`), and
otherwise print the root line followed by the traversal and exit 0. -/
def mainRun (args : List String) (rootFs : Option FSTree) : Nat × List Rendered :=
  match parseArgs args with
  | none => (1, [])
  | some st =>
    match rootFs with
    | none => (1, [])
    | some t => (0, rootLine st.cfg t :: printTree st.cfg "" "" 0 t)

mutual

/-- Sizes of every regular file reachable anywhere below an entry,
written directly after the specification's words ("the sum of the sizes
of every regular file found by an unfiltered, unlimited-depth recursive
walk"); compared with the program's `dirSizeRecursive`. -/
def specFileSizes : FSTree → List Nat
  | .file _ s => [s]
  | .dir _ cs => specFileSizesList cs

/-- File sizes reachable in a list of subtrees. -/
def specFileSizesList : List FSTree → List Nat
  | [] => []
  | c :: cs => specFileSizes c ++ specFileSizesList cs

end

/-- Exclude rejection written directly after the specification's words:
a pattern with a separator rejects exactly the equal relative path and
its subtree, a bare pattern rejects exactly the equal basename. -/
def specRejectEx (p rel base : String) : Bool :=
  if strContainsChar p '/' then decide (rel = p) || strStartsWith rel (p ++ "/")
  else decide (base = p)

/-- The expected `isLast` column of a level with `n` entries: true only
at the final index. -/
def lastFlags (n : Nat) : List Bool :=
  (List.range n).map fun i => decide (i = n - 1)

/-- The lines of one `printTree` call's own level: the rendered entries
carrying that call's `depth` parameter (recursive calls use strictly
larger depths). -/
def renderedLevel (cfg : Config) (parentRel pre : String) (depth : Nat) (t : FSTree) :
    List Rendered :=
  (printTree cfg parentRel pre depth t).filter fun e => decide (e.depth = depth)

/-- The computable comparison `charListLt` decides the lexicographic
order on character lists. -/
theorem charListLt_iff : ∀ as bs : List Char, charListLt as bs = true ↔ as < bs := by
  intro as
  induction as with
  | nil =>
    intro bs
    cases bs with
    | nil =>
      simp only [charListLt, Bool.false_eq_true, false_iff]
      exact fun h => by cases h
    | cons b bs =>
      simp only [charListLt, true_iff]
      exact List.Lex.nil
  | cons a as ih =>
    intro bs
    cases bs with
    | nil =>
      simp only [charListLt, Bool.false_eq_true, false_iff]
      exact fun h => by cases h
    | cons b bs =>
      simp only [charListLt]
      by_cases hab : a < b
      · simp only [hab, if_true, true_iff]
        exact List.Lex.rel hab
      · by_cases hba : b < a
        · simp only [hab, hba, if_true, if_false, Bool.false_eq_true, false_iff]
          intro h
          cases h with
          | rel h => exact hab h
          | cons h => exact absurd hba (lt_irrefl a)
        · have heq : a = b := le_antisymm (not_lt.mp hba) (not_lt.mp hab)
          subst heq
          simp only [hab, hba, if_false]
          rw [ih bs]
          constructor
          · exact List.Lex.cons
          · intro h
            cases h with
            | rel h => exact absurd h (lt_irrefl a)
            | cons h => exact h

/-- `charListLt` on the character data decides `<` on strings. -/
theorem strLt_iff (a b : String) : charListLt a.data b.data = true ↔ a < b := by
  rw [String.lt_iff_toList_lt]
  exact charListLt_iff a.data b.data

/-- A true `nameLt` is a strict name inequality. -/
theorem nameLt_true {x y : FSTree} (h : nameLt x y = true) : x.name < y.name :=
  (strLt_iff x.name y.name).mp h

/-- A false `nameLt` is the reverse large inequality. -/
theorem nameLt_false {x y : FSTree} (h : nameLt x y = false) : y.name ≤ x.name := by
  have : ¬ x.name < y.name := fun hc => by
    rw [← strLt_iff x.name y.name] at hc
    rw [nameLt] at h
    exact absurd hc (by simp [h])
  exact not_lt.mp this

/-- Inserting into the sorted list permutes a cons. -/
theorem insertByName_perm (x : FSTree) : ∀ l : List FSTree, (insertByName x l).Perm (x :: l)
  | [] => List.Perm.refl _
  | y :: ys => by
    simp only [insertByName]
    cases h : nameLt y x with
    | true =>
      simp only [if_true]
      exact ((insertByName_perm x ys).cons y).trans (List.Perm.swap x y ys)
    | false =>
      simp only [Bool.false_eq_true, if_false]
      exact List.Perm.refl _

/-- The level sort permutes its input. -/
theorem sortByName_perm : ∀ l : List FSTree, (sortByName l).Perm l
  | [] => List.Perm.refl _
  | x :: xs => (insertByName_perm x (sortByName xs)).trans ((sortByName_perm xs).cons x)

/-- Insertion preserves name-sortedness. -/
theorem pairwise_insertByName {x : FSTree} : ∀ {l : List FSTree},
    l.Pairwise (fun a b => a.name ≤ b.name) →
    (insertByName x l).Pairwise (fun a b => a.name ≤ b.name) := by
  intro l
  induction l with
  | nil =>
    intro _
    simp [insertByName]
  | cons y ys ih =>
    intro hp
    rw [List.pairwise_cons] at hp
    obtain ⟨hy, hys⟩ := hp
    simp only [insertByName]
    cases h : nameLt y x with
    | true =>
      simp only [if_true]
      rw [List.pairwise_cons]
      refine ⟨?_, ih hys⟩
      intro z hz
      rw [(insertByName_perm x ys).mem_iff] at hz
      rcases List.mem_cons.mp hz with rfl | hz
      · exact le_of_lt (nameLt_true h)
      · exact hy z hz
    | false =>
      simp only [Bool.false_eq_true, if_false]
      rw [List.pairwise_cons]
      refine ⟨?_, List.pairwise_cons.mpr ⟨hy, hys⟩⟩
      intro z hz
      rcases List.mem_cons.mp hz with rfl | hz
      · exact nameLt_false h
      · exact le_trans (nameLt_false h) (hy z hz)

/-- The level sort produces a name-sorted list. -/
theorem sortByName_sorted : ∀ l : List FSTree,
    (sortByName l).Pairwise (fun a b => a.name ≤ b.name)
  | [] => by simp [sortByName]
  | x :: xs => pairwise_insertByName (sortByName_sorted xs)

/-- Membership in a rendered level is membership among the children plus
the filter decision. -/
theorem mem_levelEntries {cfg : Config} {r : String} {cs : List FSTree} {c : FSTree} :
    c ∈ levelEntries cfg r cs ↔
      c ∈ cs ∧ passesFilter cfg (childRel r c.name) c.name = true := by
  unfold levelEntries
  rw [(sortByName_perm _).mem_iff, List.mem_filter]

/-- Splitting the filter into its three decisions. -/
theorem passesFilter_eq_true {cfg : Config} {rel base : String} :
    passesFilter cfg rel base = true ↔
      hiddenSkip cfg base = false ∧ isExcluded cfg rel base = false
        ∧ isAllowed cfg rel = true := by
  simp [passesFilter, Bool.and_eq_true, Bool.not_eq_true', and_assoc]

/-- The second component of an enumerated element is a list member. -/
theorem mem_enum_snd {α : Type} {l : List α} {p : Nat × α} (h : p ∈ l.enum) : p.2 ∈ l := by
  have := List.mem_map_of_mem Prod.snd h
  rwa [List.enum_map_snd] at this

/-- At or above the depth ceiling the traversal returns immediately. -/
theorem printTreeGo_stop {cfg : Config} {fuel : Nat} {r pre : String} {d : Nat} {t : FSTree}
    (h : stopAtDepth cfg d = true) : printTreeGo cfg fuel r pre d t = [] := by
  cases fuel with
  | zero => simp [printTreeGo]
  | succ fuel =>
    cases t with
    | file n s => simp [printTreeGo]
    | dir n cs => simp [printTreeGo, h]

/-- Inversion of one traversal step on a directory: every output line is
either the line of a surviving entry of this level or comes from the
recursive call on a surviving directory. -/
theorem mem_printTreeGo_cases {cfg : Config} {fuel : Nat} {r pre : String} {d : Nat}
    {n : String} {cs : List FSTree} {e : Rendered}
    (h : e ∈ printTreeGo cfg (fuel + 1) r pre d (FSTree.dir n cs)) :
    stopAtDepth cfg d = false ∧
      ∃ ic ∈ (levelEntries cfg r cs).enum,
        e = mkLine cfg r pre d (decide (ic.1 = (levelEntries cfg r cs).length - 1)) ic.2
        ∨ (ic.2.isDir = true ∧
            e ∈ printTreeGo cfg fuel (childRel r ic.2.name)
              (pre ++ vertical cfg.theme (decide (ic.1 = (levelEntries cfg r cs).length - 1)))
              (d + 1) ic.2) := by
  cases hstop : stopAtDepth cfg d with
  | true => rw [printTreeGo_stop hstop] at h; simp at h
  | false =>
    refine ⟨rfl, ?_⟩
    rw [printTreeGo] at h
    simp only [hstop, Bool.false_eq_true, if_false, List.mem_flatMap] at h
    obtain ⟨ic, hic, he⟩ := h
    refine ⟨ic, hic, ?_⟩
    rcases List.mem_cons.mp he with rfl | he
    · exact Or.inl rfl
    · cases hdir : ic.2.isDir with
      | true =>
        rw [hdir] at he
        simp only [if_true] at he
        exact Or.inr ⟨rfl, he⟩
      | false =>
        rw [hdir] at he
        simp at he

/-- No rendered entry is matched by an exclude pattern. -/
theorem printTreeGo_notExcluded :
    ∀ (fuel : Nat) (cfg : Config) (r pre : String) (d : Nat) (t : FSTree) (e : Rendered),
      e ∈ printTreeGo cfg fuel r pre d t → isExcluded cfg e.rel e.name = false := by
  intro fuel
  induction fuel with
  | zero =>
    intro cfg r pre d t e h
    simp [printTreeGo] at h
  | succ fuel ih =>
    intro cfg r pre d t e h
    cases t with
    | file n s => simp [printTreeGo] at h
    | dir n cs =>
      obtain ⟨hstop, ic, hic, hcase⟩ := mem_printTreeGo_cases h
      rcases hcase with rfl | ⟨hd, hrec⟩
      · have hp := (mem_levelEntries.mp (mem_enum_snd hic)).2
        have hex := (passesFilter_eq_true.mp hp).2.1
        simpa [mkLine] using hex
      · exact ih cfg _ _ _ _ e hrec

/-- With the hidden-file rule active no rendered entry has a basename
starting with a dot. -/
theorem printTreeGo_noHidden :
    ∀ (fuel : Nat) (cfg : Config) (r pre : String) (d : Nat) (t : FSTree) (e : Rendered),
      "." ∈ cfg.excludeList → e ∈ printTreeGo cfg fuel r pre d t →
      strStartsWith e.name "." = false := by
  intro fuel
  induction fuel with
  | zero =>
    intro cfg r pre d t e _ h
    simp [printTreeGo] at h
  | succ fuel ih =>
    intro cfg r pre d t e hdot h
    cases t with
    | file n s => simp [printTreeGo] at h
    | dir n cs =>
      obtain ⟨hstop, ic, hic, hcase⟩ := mem_printTreeGo_cases h
      rcases hcase with rfl | ⟨hd, hrec⟩
      · have hp := (mem_levelEntries.mp (mem_enum_snd hic)).2
        have hh := (passesFilter_eq_true.mp hp).1
        have hany : (cfg.excludeList.any fun s => decide (s = ".")) = true := by
          rw [List.any_eq_true]
          exact ⟨".", hdot, by simp⟩
        rw [hiddenSkip, hany] at hh
        simp only [mkLine]
        cases hie : ic.2.name.data.isEmpty with
        | true =>
          have hnil : ic.2.name.data = [] := by simpa using hie
          simp [strStartsWith, hnil, List.isPrefixOf]
        | false =>
          rw [hie] at hh
          simpa using hh
      · exact ih cfg _ _ _ _ e hdot hrec

/-- Every rendered entry carries at least the depth of the call that
produced it. -/
theorem printTreeGo_depth_le :
    ∀ (fuel : Nat) (cfg : Config) (r pre : String) (d : Nat) (t : FSTree) (e : Rendered),
      e ∈ printTreeGo cfg fuel r pre d t → d ≤ e.depth := by
  intro fuel
  induction fuel with
  | zero =>
    intro cfg r pre d t e h
    simp [printTreeGo] at h
  | succ fuel ih =>
    intro cfg r pre d t e h
    cases t with
    | file n s => simp [printTreeGo] at h
    | dir n cs =>
      obtain ⟨hstop, ic, hic, hcase⟩ := mem_printTreeGo_cases h
      rcases hcase with rfl | ⟨hd, hrec⟩
      · simp [mkLine]
      · exact le_trans (Nat.le_succ d) (ih cfg _ _ _ _ e hrec)

/-- With a depth ceiling every rendered entry stays strictly below it. -/
theorem printTreeGo_depth_lt :
    ∀ (fuel : Nat) (cfg : Config) (r pre : String) (d : Nat) (t : FSTree) (m : Nat)
      (e : Rendered), cfg.maxDepth = some m → e ∈ printTreeGo cfg fuel r pre d t →
      e.depth < m := by
  intro fuel
  induction fuel with
  | zero =>
    intro cfg r pre d t m e _ h
    simp [printTreeGo] at h
  | succ fuel ih =>
    intro cfg r pre d t m e hm h
    cases t with
    | file n s => simp [printTreeGo] at h
    | dir n cs =>
      obtain ⟨hstop, ic, hic, hcase⟩ := mem_printTreeGo_cases h
      rcases hcase with rfl | ⟨hd, hrec⟩
      · rw [stopAtDepth, hm] at hstop
        simp only [decide_eq_false_iff_not, not_le] at hstop
        simpa [mkLine] using hstop
      · exact ih cfg _ _ _ _ m e hm hrec

/-- Filtering a flat-mapped cons keeps exactly the heads when every head
satisfies the predicate and no tail element does. -/
theorem filter_flatMap_cons {α : Type} (p : Rendered → Bool) :
    ∀ (l : List α) (g : α → Rendered) (sub : α → List Rendered),
      (∀ x ∈ l, p (g x) = true) → (∀ x ∈ l, ∀ y ∈ sub x, p y = false) →
      (l.flatMap fun x => g x :: sub x).filter p = l.map g := by
  intro l
  induction l with
  | nil =>
    intro g sub _ _
    rfl
  | cons a as ih =>
    intro g sub h1 h2
    rw [List.flatMap_cons, List.filter_append, List.map_cons]
    rw [List.filter_cons_of_pos (h1 a (List.mem_cons_self a as))]
    rw [List.filter_eq_nil_iff.mpr fun y hy => by
      simp [h2 a (List.mem_cons_self a as) y hy]]
    rw [ih g sub (fun x hx => h1 x (List.mem_cons_of_mem a hx))
      (fun x hx => h2 x (List.mem_cons_of_mem a hx))]
    rfl

/-- Below the depth ceiling the lines of a directory's own level are
exactly the lines of its surviving, sorted entries in order. -/
theorem renderedLevel_dir {cfg : Config} {r pre : String} {d : Nat} {n : String}
    {cs : List FSTree} (h : stopAtDepth cfg d = false) :
    renderedLevel cfg r pre d (FSTree.dir n cs)
      = (levelEntries cfg r cs).enum.map
          (fun ic => mkLine cfg r pre d (decide (ic.1 = (levelEntries cfg r cs).length - 1)) ic.2) := by
  unfold renderedLevel printTree
  show (printTreeGo cfg (heightList cs + 1) r pre d (FSTree.dir n cs)).filter _ = _
  rw [printTreeGo]
  simp only [h, Bool.false_eq_true, if_false]
  apply filter_flatMap_cons
  · intro ic _
    simp [mkLine]
  · intro ic _ y hy
    cases hdir : ic.2.isDir with
    | true =>
      rw [hdir] at hy
      simp only [if_true] at hy
      have := printTreeGo_depth_le _ cfg _ _ _ _ y hy
      simp only [decide_eq_false_iff_not]
      omega
    | false =>
      rw [hdir] at hy
      simp at hy

mutual

/-- The recursive-iterator total below one entry, plus the entry's own
contribution, is the total of all reachable regular-file sizes. -/
theorem riSum : ∀ t : FSTree,
    entrySizeContrib t + ((riEntries t).map entrySizeContrib).sum = (specFileSizes t).sum
  | .file n s => by simp [riEntries, specFileSizes, entrySizeContrib]
  | .dir n cs => by
    have := riSumList cs
    simp only [riEntries, specFileSizes, entrySizeContrib]
    omega

/-- List version of `riSum`. -/
theorem riSumList : ∀ cs : List FSTree,
    ((riEntriesList cs).map entrySizeContrib).sum = (specFileSizesList cs).sum
  | [] => by simp [riEntriesList, specFileSizesList]
  | c :: cs => by
    have h1 := riSum c
    have h2 := riSumList cs
    simp only [riEntriesList, specFileSizesList, List.map_append, List.sum_append,
      List.map_cons, List.sum_cons]
    omega

end

/-- The directory total of `dirSizeRecursive` is the sum of every
reachable regular-file size. -/
theorem dirSizeRecursive_dir (n : String) (cs : List FSTree) :
    dirSizeRecursive (FSTree.dir n cs) = (specFileSizes (FSTree.dir n cs)).sum := by
  have := riSumList cs
  simp only [dirSizeRecursive, riEntries, specFileSizes]
  omega

/-- The division loop advances the index by at most the fuel. -/
theorem sizeIdxGo_le (b : Nat) : ∀ (fuel idx : Nat), sizeIdxGo b idx fuel ≤ idx + fuel := by
  intro fuel
  induction fuel with
  | zero =>
    intro idx
    simp [sizeIdxGo]
  | succ fuel ih =>
    intro idx
    rw [sizeIdxGo]
    split
    · exact le_trans (ih (idx + 1)) (by omega)
    · omega

/-- The division loop never decreases the index. -/
theorem sizeIdxGo_ge (b : Nat) : ∀ (fuel idx : Nat), idx ≤ sizeIdxGo b idx fuel := by
  intro fuel
  induction fuel with
  | zero =>
    intro idx
    simp [sizeIdxGo]
  | succ fuel ih =>
    intro idx
    rw [sizeIdxGo]
    split
    · exact le_trans (Nat.le_succ idx) (ih (idx + 1))
    · exact le_refl idx

/-- When the loop stops before exhausting its fuel, the guard failed:
the value no longer reaches 1024. -/
theorem sizeIdxGo_lt_bound (b : Nat) : ∀ (fuel idx : Nat),
    sizeIdxGo b idx fuel < idx + fuel → b < 1024 ^ (sizeIdxGo b idx fuel + 1) := by
  intro fuel
  induction fuel with
  | zero =>
    intro idx h
    rw [sizeIdxGo] at h ⊢
    omega
  | succ fuel ih =>
    intro idx
    rw [sizeIdxGo]
    split
    · intro hlt
      exact ih (idx + 1) (by omega)
    · intro _
      omega

/-- Every division actually performed had its guard true: after a
positive number of divisions the original value reaches the selected
scale. -/
theorem sizeIdxGo_pos_bound (b : Nat) : ∀ (fuel idx : Nat),
    idx < sizeIdxGo b idx fuel → 1024 ^ (sizeIdxGo b idx fuel) ≤ b := by
  intro fuel
  induction fuel with
  | zero =>
    intro idx h
    rw [sizeIdxGo] at h
    omega
  | succ fuel ih =>
    intro idx
    rw [sizeIdxGo]
    split
    · rename_i hguard
      intro _
      by_cases h2 : idx + 1 < sizeIdxGo b (idx + 1) fuel
      · exact ih (idx + 1) h2
      · have heq : sizeIdxGo b (idx + 1) fuel = idx + 1 :=
          le_antisymm (not_lt.mp h2) (sizeIdxGo_ge b fuel (idx + 1))
        rw [heq]
        exact hguard
    · intro h
      omega

/-- An exclude decision of `false` unfolds to the per-pattern spec rule
with the `.` pattern set aside. -/
theorem matchesExclude_eq_false_iff {p rel base : String} :
    matchesExclude p rel base = false ↔ (p ≠ "." → specRejectEx p rel base = false) := by
  by_cases hp : p = "."
  · simp [matchesExclude, hp]
  · simp [matchesExclude, hp, specRejectEx]

/-- The exclude loop rejects nothing exactly when every pattern other
than `.` rejects nothing. -/
theorem isExcluded_eq_false_iff {cfg : Config} {rel base : String} :
    isExcluded cfg rel base = false ↔
      ∀ p ∈ cfg.excludeList, p ≠ "." → specRejectEx p rel base = false := by
  rw [isExcluded, List.any_eq_false]
  constructor
  · intro h p hp
    exact matchesExclude_eq_false_iff.mp (Bool.eq_false_iff.mpr (h p hp))
  · intro h p hp
    rw [Bool.not_eq_true]
    exact matchesExclude_eq_false_iff.mpr (h p hp)

/-- C1: exclude precedence — an entry matched by an exclude pattern is
absent from the rendered output regardless of the include patterns:
every rendered entry has a negative exclude decision on exactly the
relative path and basename the program computed for it, for every
configuration (in particular for configurations whose include patterns
also match the entry). -/
theorem claimC1 (cfg : Config) (r pre : String) (d : Nat) (t : FSTree) (e : Rendered)
    (h : e ∈ printTree cfg r pre d t) : isExcluded cfg e.rel e.name = false :=
  printTreeGo_notExcluded t.height cfg r pre d t e h

/-- Witness for C1 at a concrete tree whose surviving entry is also an
include match. -/
theorem claimC1Witness :
    isExcluded { excludeList := ["skip"], onlyList := ["skip", "keep"], maxDepth := none,
                 showSizes := false, theme := Theme.classic } "keep" "keep" = false :=
  claimC1 _ "" "" 0 (FSTree.dir "r" [FSTree.file "skip" 1, FSTree.file "keep" 2])
    { name := "keep", rel := "keep", depth := 0, isDir := false, isLast := true,
      glyph := "└── ", suffix := "", pre := "" } (by decide)

/-- C2: exclude matching semantics — an entry survives a directory
listing exactly when, besides the hidden-file rule and the include
decision, every exclude pattern other than `.` fails the spec rule: a
pattern with a separator rejects exactly the equal relative path or a
relative path extending it by `/`, and a bare pattern rejects exactly
the equal basename (so equal basenames at other relative paths are kept). -/
theorem claimC2 (cfg : Config) (r : String) (cs : List FSTree) (c : FSTree) :
    c ∈ levelEntries cfg r cs ↔
      c ∈ cs ∧ hiddenSkip cfg c.name = false
        ∧ (∀ p ∈ cfg.excludeList, p ≠ "." → specRejectEx p (childRel r c.name) c.name = false)
        ∧ isAllowed cfg (childRel r c.name) = true := by
  rw [mem_levelEntries, passesFilter_eq_true, isExcluded_eq_false_iff]

/-- Witness for C2: a file whose basename equals the tail of a
separator-bearing exclude pattern survives at a different relative path. -/
theorem claimC2Witness :
    FSTree.file "main.cpp" 3 ∈
      levelEntries { excludeList := ["src/main.cpp"], onlyList := [], maxDepth := none,
                     showSizes := false, theme := Theme.classic } "" [FSTree.file "main.cpp" 3] :=
  (claimC2 _ "" [FSTree.file "main.cpp" 3] (FSTree.file "main.cpp" 3)).mpr
    ⟨List.mem_cons_self _ _, by decide,
     fun p hp _ => by rw [List.mem_singleton] at hp; subst hp; decide,
     by decide⟩

/-- The include decision with a non-empty only-list is an existential
over the three spec disjuncts. -/
theorem isAllowed_eq_true_nonempty {cfg : Config} {rel : String} (h : cfg.onlyList ≠ []) :
    isAllowed cfg rel = true ↔
      ∃ p ∈ cfg.onlyList, rel = p ∨ strStartsWith rel (p ++ "/") = true
        ∨ strStartsWith p (rel ++ "/") = true := by
  have hne : cfg.onlyList.isEmpty = false := by
    cases hl : cfg.onlyList with
    | nil => exact absurd hl h
    | cons a as => rfl
  rw [isAllowed, hne]
  simp [List.any_eq_true, includeMatch, Bool.or_eq_true, decide_eq_true_eq, or_assoc]

/-- C3: include semantics — with an empty only-list every entry passing
the hidden-file rule and the exclude patterns survives the listing; with
a non-empty only-list such an entry survives exactly when some include
pattern equals its relative path, or extends it below, or lies above it
on the path to a deeper match. -/
theorem claimC3 (cfg : Config) (r : String) (cs : List FSTree) (c : FSTree) :
    (cfg.onlyList = [] →
      (c ∈ levelEntries cfg r cs ↔
        c ∈ cs ∧ hiddenSkip cfg c.name = false
          ∧ isExcluded cfg (childRel r c.name) c.name = false))
  ∧ (cfg.onlyList ≠ [] →
      (c ∈ levelEntries cfg r cs ↔
        c ∈ cs ∧ hiddenSkip cfg c.name = false
          ∧ isExcluded cfg (childRel r c.name) c.name = false
          ∧ ∃ p ∈ cfg.onlyList, childRel r c.name = p
              ∨ strStartsWith (childRel r c.name) (p ++ "/") = true
              ∨ strStartsWith p (childRel r c.name ++ "/") = true)) := by
  constructor
  · intro h
    have hall : isAllowed cfg (childRel r c.name) = true := by
      simp [isAllowed, h]
    rw [mem_levelEntries, passesFilter_eq_true, hall]
    simp
  · intro h
    rw [mem_levelEntries, passesFilter_eq_true, isAllowed_eq_true_nonempty h]

/-- Witness for C3: with `-o src` active the `src` directory itself
survives the root listing. -/
theorem claimC3Witness :
    FSTree.dir "src" [] ∈
      levelEntries { excludeList := [], onlyList := ["src"], maxDepth := none,
                     showSizes := false, theme := Theme.classic } "" [FSTree.dir "src" []] :=
  ((claimC3 _ "" [FSTree.dir "src" []] (FSTree.dir "src" [])).2 (by decide)).mpr
    ⟨List.mem_cons_self _ _, by decide, by decide,
     ⟨"src", List.mem_cons_self _ _, Or.inl (by decide)⟩⟩

/-- C4: hidden-file rule — when the exclude set holds the literal `.`,
no rendered entry's basename starts with a dot, and the `.` pattern
itself never rejects anything during ordinary exclude matching. -/
theorem claimC4 :
    (∀ (cfg : Config) (r pre : String) (d : Nat) (t : FSTree) (e : Rendered),
        "." ∈ cfg.excludeList → e ∈ printTree cfg r pre d t →
        strStartsWith e.name "." = false)
  ∧ (∀ rel base : String, matchesExclude "." rel base = false) := by
  constructor
  · intro cfg r pre d t e hdot h
    exact printTreeGo_noHidden t.height cfg r pre d t e hdot h
  · intro rel base
    simp [matchesExclude]

/-- Witness for C4 at a concrete listing with `-e .` active. -/
theorem claimC4Witness :
    strStartsWith "src" "." = false ∧ matchesExclude "." "a/b" "b" = false :=
  ⟨claimC4.1 { excludeList := ["."], onlyList := [], maxDepth := none,
               showSizes := false, theme := Theme.classic } "" "" 0
      (FSTree.dir "r" [FSTree.file ".git" 1, FSTree.file "src" 2])
      { name := "src", rel := "src", depth := 0, isDir := false, isLast := true,
        glyph := "└── ", suffix := "", pre := "" } (by decide) (by decide),
   claimC4.2 "a/b" "b"⟩

/-- C5: depth ceiling — with `maxDepth = some m` a call at depth at
least `m` returns immediately, every rendered entry's depth parameter
stays below `m` (an entry rendered at depth `k` lies `k + 1` levels
below the root, so nothing lies more than `m` levels deep), and with
`m = 0` the traversal prints nothing beyond the root line; all of this
for every exclude/include configuration. -/
theorem claimC5 (cfg : Config) (m : Nat) (r pre : String) (d : Nat) (t : FSTree)
    (h : cfg.maxDepth = some m) :
    (m ≤ d → printTree cfg r pre d t = [])
  ∧ (∀ e ∈ printTree cfg r pre d t, e.depth < m)
  ∧ (m = 0 → printTree cfg r pre 0 t = []) := by
  refine ⟨?_, ?_, ?_⟩
  · intro hmd
    apply printTreeGo_stop
    simp [stopAtDepth, h]
    exact hmd
  · intro e he
    exact printTreeGo_depth_lt t.height cfg r pre d t m e h he
  · intro hm0
    apply printTreeGo_stop
    simp [stopAtDepth, h, hm0]

/-- Witness for C5 with ceiling 1. -/
theorem claimC5Witness :
    printTree (Config.mk [] [] (some 1) false Theme.classic) "" "" 1
        (FSTree.dir "r" [FSTree.file "a" 1]) = []
  ∧ (Rendered.mk "a" "a" 0 false true "└── " "" "").depth < 1 :=
  ⟨(claimC5 (Config.mk [] [] (some 1) false Theme.classic) 1 "" "" 1
      (FSTree.dir "r" [FSTree.file "a" 1]) rfl).1 (le_refl 1),
   (claimC5 (Config.mk [] [] (some 1) false Theme.classic) 1 "" "" 0
      (FSTree.dir "r" [FSTree.file "a" 1]) rfl).2.1 (Rendered.mk "a" "a" 0 false true "└── " "" "")
      (by decide)⟩

/-- C6: directory size aggregation is unfiltered — whenever size display
is on, the annotation the renderer attaches to a directory is the
formatted sum of the sizes of every regular file reachable anywhere
below it, for every configuration (so independent of the exclude and
include patterns and of the depth ceiling). -/
theorem claimC6 (cfg : Config) (n : String) (cs : List FSTree)
    (h : cfg.showSizes = true) :
    sizeSuffix cfg (FSTree.dir n cs)
      = " (" ++ formatSize ((specFileSizes (FSTree.dir n cs)).sum) ++ ")" := by
  simp [sizeSuffix, h, FSTree.isDir, dirSizeRecursive_dir n cs]

/-- Witness for C6 at a concrete directory. -/
theorem claimC6Witness :
    sizeSuffix { excludeList := ["a"], onlyList := ["b"], maxDepth := some 0,
                 showSizes := true, theme := Theme.classic }
        (FSTree.dir "d" [FSTree.file "a" 3, FSTree.dir "s" [FSTree.file "b" 5]])
      = " (" ++ formatSize ((specFileSizes
          (FSTree.dir "d" [FSTree.file "a" 3, FSTree.dir "s" [FSTree.file "b" 5]])).sum) ++ ")" :=
  claimC6 _ "d" [FSTree.file "a" 3, FSTree.dir "s" [FSTree.file "b" 5]] rfl

/-- Counterexample for C7: 2,097,152 bytes scale to exactly 2.0 after
two divisions, which is below 10 with a positive division count, so the
program renders one decimal place, not the claimed rounded integer. -/
theorem claimC7Counterexample : formatSize 2097152 ≠ "2 MiB" := by decide

/-- C7 (amended): the size formatter divides by 1024 while the value is
at least 1024 and at most six divisions have occurred (so the selected
scale always satisfies the stated loop bounds), renders one decimal
place exactly when the scaled value is below 10 after at least one
division, and produces "1.5 KiB", "10 KiB", "900 B", "2.0 KiB" and
"2.0 MiB" on the example inputs — 2,097,152 bytes format as "2.0 MiB",
not "2 MiB". -/
theorem claimC7 :
    formatSize 1536 = "1.5 KiB"
  ∧ formatSize 10240 = "10 KiB"
  ∧ formatSize 900 = "900 B"
  ∧ formatSize 2000 = "2.0 KiB"
  ∧ formatSize 2097152 = "2.0 MiB"
  ∧ (∀ b : Nat, sizeIdx b ≤ 6
      ∧ (sizeIdx b < 6 → b < 1024 ^ (sizeIdx b + 1))
      ∧ (0 < sizeIdx b → 1024 ^ sizeIdx b ≤ b)) := by
  refine ⟨by decide, by decide, by decide, by decide, by decide, ?_⟩
  intro b
  refine ⟨?_, ?_, ?_⟩
  · simpa using sizeIdxGo_le b 6 0
  · intro h
    exact sizeIdxGo_lt_bound b 6 0 (by simpa [sizeIdx] using h)
  · intro h
    exact sizeIdxGo_pos_bound b 6 0 (by simpa [sizeIdx] using h)

/-- Witness for C7 at 2048 bytes. -/
theorem claimC7Witness :
    sizeIdx 2048 ≤ 6 ∧ 2048 < 1024 ^ (sizeIdx 2048 + 1) ∧ 1024 ^ sizeIdx 2048 ≤ 2048 :=
  ⟨(claimC7.2.2.2.2.2 2048).1, (claimC7.2.2.2.2.2 2048).2.1 (by decide),
   (claimC7.2.2.2.2.2 2048).2.2 (by decide)⟩

/-- Counterexample for C8: running with the single argument `help`
prints the usage text and exits with code 1, not the claimed 0
(`parseArgs` returns false after `showHelp()` and `main` maps every
false return to exit code 1). -/
theorem claimC8Counterexample :
    (mainRun ["help"] (some (FSTree.dir "r" []))).1 = 1
  ∧ (mainRun ["help"] (some (FSTree.dir "r" []))).1 ≠ 0 := by decide

/-- C8 (amended): the process exits with code 0 on a successful run,
and with code 1 after printing help, on any argument error (missing
value after `-e`/`-o`/`-d`/`-t`, non-numeric depth, unknown theme) and
when the resolved root path does not exist; help and argument errors
terminate the run before any traversal, producing no tree output. -/
theorem claimC8 :
    (∀ fs : Option FSTree, mainRun ["help"] fs = (1, []))
  ∧ parseArgs ["-e"] = none
  ∧ parseArgs ["-o"] = none
  ∧ parseArgs ["-d"] = none
  ∧ parseArgs ["-t"] = none
  ∧ parseArgs ["-d", "abc"] = none
  ∧ parseArgs ["-t", "fancy"] = none
  ∧ (∀ (args : List String) (fs : Option FSTree),
      parseArgs args = none → mainRun args fs = (1, []))
  ∧ (∀ (args : List String) (st : ParseState),
      parseArgs args = some st → mainRun args none = (1, []))
  ∧ (∀ (args : List String) (st : ParseState) (t : FSTree),
      parseArgs args = some st → (mainRun args (some t)).1 = 0) := by
  refine ⟨?_, by decide, by decide, by decide, by decide, by decide, by decide, ?_, ?_, ?_⟩
  · intro fs
    rfl
  · intro args fs h
    simp [mainRun, h]
  · intro args st h
    simp [mainRun, h]
  · intro args st t h
    simp [mainRun, h]

/-- Witness for C8: a malformed depth exits 1 with no output, a missing
root exits 1, and an ordinary run exits 0. -/
theorem claimC8Witness :
    mainRun ["-d", "abc"] (some (FSTree.dir "r" [])) = (1, [])
  ∧ mainRun ["sub"] none = (1, [])
  ∧ (mainRun [] (some (FSTree.dir "r" []))).1 = 0 :=
  ⟨claimC8.2.2.2.2.2.2.2.1 ["-d", "abc"] (some (FSTree.dir "r" [])) (by decide),
   claimC8.2.2.2.2.2.2.2.2.1 ["sub"] (ParseState.mk initConfig (some "sub")) (by decide),
   claimC8.2.2.2.2.2.2.2.2.2 [] initState (FSTree.dir "r" []) (by decide)⟩

/-- C9: sibling ordering — below the depth ceiling the lines a directory
level emits carry exactly the names of its surviving entry list, that
list is name-sorted (lexicographic string order, one rule for files and
directories alike) and is a permutation of the filtered children (no
regrouping), the `isLast` column is true only at the final index, and
every line's branch glyph is the theme glyph selected by its `isLast`
flag. -/
theorem claimC9 (cfg : Config) (r pre : String) (d : Nat) (n : String) (cs : List FSTree)
    (h : stopAtDepth cfg d = false) :
    (renderedLevel cfg r pre d (FSTree.dir n cs)).map Rendered.name
        = (levelEntries cfg r cs).map FSTree.name
  ∧ (renderedLevel cfg r pre d (FSTree.dir n cs)).Pairwise (fun a b => a.name ≤ b.name)
  ∧ (levelEntries cfg r cs).Perm
      (cs.filter fun c => passesFilter cfg (childRel r c.name) c.name)
  ∧ (renderedLevel cfg r pre d (FSTree.dir n cs)).map Rendered.isLast
      = lastFlags (renderedLevel cfg r pre d (FSTree.dir n cs)).length
  ∧ (∀ e ∈ renderedLevel cfg r pre d (FSTree.dir n cs),
      e.glyph = branch cfg.theme e.isLast) := by
  have hlvl := @renderedLevel_dir cfg r pre d n cs h
  refine ⟨?_, ?_, sortByName_perm _, ?_, ?_⟩
  · rw [hlvl, List.map_map]
    have hfun : (Rendered.name ∘ fun ic : Nat × FSTree =>
        mkLine cfg r pre d (decide (ic.1 = (levelEntries cfg r cs).length - 1)) ic.2)
        = (FSTree.name ∘ Prod.snd) := funext fun ic => rfl
    rw [hfun, ← List.map_map, List.enum_map_snd]
  · rw [hlvl, List.pairwise_map]
    have hp : (levelEntries cfg r cs).Pairwise (fun a b => a.name ≤ b.name) :=
      sortByName_sorted _
    rw [← List.enum_map_snd (levelEntries cfg r cs)] at hp
    exact (List.pairwise_map.mp hp).imp fun hab => hab
  · rw [hlvl, List.map_map, List.length_map, List.enum_length]
    have hfun : (Rendered.isLast ∘ fun ic : Nat × FSTree =>
        mkLine cfg r pre d (decide (ic.1 = (levelEntries cfg r cs).length - 1)) ic.2)
        = (fun ic : Nat × FSTree => decide (ic.1 = (levelEntries cfg r cs).length - 1)) :=
      funext fun ic => rfl
    rw [hfun, lastFlags, ← List.enum_map_fst (levelEntries cfg r cs), List.map_map]
    rfl
  · rw [hlvl]
    intro e he
    rw [List.mem_map] at he
    obtain ⟨ic, _, rfl⟩ := he
    rfl

/-- Witness for C9 at a concrete two-entry level (a file and a
directory, listed in reverse name order). -/
theorem claimC9Witness :
    (renderedLevel initConfig "" "" 0
        (FSTree.dir "r" [FSTree.file "b" 1, FSTree.dir "a" []])).map Rendered.name
      = (levelEntries initConfig "" [FSTree.file "b" 1, FSTree.dir "a" []]).map FSTree.name :=
  (claimC9 initConfig "" "" 0 "r" [FSTree.file "b" 1, FSTree.dir "a" []] rfl).1

/-- C10: a root that exists but is not a directory is not an error — the
run prints exactly the root line (whose annotation is the file's own
size whenever size display is on), lists no children because the failed
directory iteration yields nothing, and exits with code 0. -/
theorem claimC10 (args : List String) (st : ParseState) (n : String) (s : Nat)
    (h : parseArgs args = some st) :
    mainRun args (some (FSTree.file n s)) = (0, [rootLine st.cfg (FSTree.file n s)])
  ∧ (st.cfg.showSizes = true →
      (rootLine st.cfg (FSTree.file n s)).suffix = " (" ++ formatSize s ++ ")") := by
  constructor
  · simp [mainRun, h, printTree, FSTree.height, printTreeGo]
  · intro hs
    simp [rootLine, sizeSuffix, hs, FSTree.isDir, fileSizeSafe]

/-- Witness for C10: running `-s` on a 7-byte regular file. -/
theorem claimC10Witness :
    mainRun ["-s"] (some (FSTree.file "f" 7))
        = (0, [rootLine (Config.mk [] [] none true Theme.classic) (FSTree.file "f" 7)])
  ∧ (rootLine (Config.mk [] [] none true Theme.classic) (FSTree.file "f" 7)).suffix
        = " (" ++ formatSize 7 ++ ")" :=
  ⟨(claimC10 ["-s"] (ParseState.mk (Config.mk [] [] none true Theme.classic) none) "f" 7
      (by decide)).1,
   (claimC10 ["-s"] (ParseState.mk (Config.mk [] [] none true Theme.classic) none) "f" 7
      (by decide)).2 rfl⟩
